import Mathlib

/-!
Verification of the data-preprocessing module `rtdl/data.py`.

The module is shallowly embedded: 2-D numeric arrays become rectangular
`List (List α)` values (rows of entries), real/float arithmetic is carried out
exactly over `ℚ`, and every Python function that can raise becomes a Lean
function into `Except String`.  Each definition mirrors one function of the
source file; comments point to the corresponding lines.
-/

namespace Rtdl

/-- A nested list is rectangular (models a well-formed 2-D numpy array /
torch tensor: every row has the length of the first row). -/
def rectB {α : Type} (M : List (List α)) : Bool :=
  M.all (fun r => r.length == (M.headD []).length)

/-- Number of columns of a 2-D array (length of the first row). -/
def nColsOf {α : Type} (M : List (List α)) : ℕ :=
  (M.headD []).length

/-- Column `f` of a 2-D array, as iterated by `for column in X.T` in the
source (`dflt` is irrelevant for rectangular input with `f` in range). -/
def columnOf {α : Type} (M : List (List α)) (dflt : α) (f : ℕ) : List α :=
  M.map (fun r => r.getD f dflt)

/-- Entry `(o, f)` of a 2-D array. -/
def entry2 {α : Type} (M : List (List α)) (dflt : α) (o f : ℕ) : α :=
  (M.getD o []).getD f dflt

/-- The ascending sort used to model `np.sort` / `np.unique` / Python
`sorted` (insertion sort: the choice of stable sorting algorithm is
observationally irrelevant here). -/
def np_sort {α : Type} [LinearOrder α] (l : List α) : List α :=
  l.insertionSort (· ≤ ·)

/-- Model of np.unique: the sorted list of distinct values of `l`. -/
def np_unique {α : Type} [LinearOrder α] (l : List α) : List α :=
  (np_sort l).dedup

/-- Fail-fast effectful map, mirroring a Python `for` loop that appends
to a result list and may `raise` at each step. -/
def mapE {α β : Type} (f : α → Except String β) : List α → Except String (List β)
  | [] => .ok []
  | a :: as =>
    match f a with
    | .error e => .error e
    | .ok b =>
      match mapE f as with
      | .error e => .error e
      | .ok bs => .ok (b :: bs)

theorem np_sort_sorted {α : Type} [LinearOrder α] (l : List α) :
    List.Pairwise (· ≤ ·) (np_sort l) :=
  List.sorted_insertionSort (· ≤ ·) l

theorem np_sort_perm {α : Type} [LinearOrder α] (l : List α) :
    (np_sort l).Perm l :=
  List.perm_insertionSort (· ≤ ·) l

theorem np_unique_sorted {α : Type} [LinearOrder α] (l : List α) :
    List.Pairwise (· < ·) (np_unique l) := by
  have hle : List.Pairwise (· ≤ ·) (np_unique l) :=
    List.Pairwise.sublist (List.dedup_sublist _) (np_sort_sorted l)
  have hne : List.Pairwise (fun a b : α => a ≠ b) (np_unique l) :=
    List.nodup_dedup _
  exact (hle.and hne).imp (fun h => lt_of_le_of_ne h.1 h.2)

theorem mem_np_unique {α : Type} [LinearOrder α] {a : α} {l : List α} :
    a ∈ np_unique l ↔ a ∈ l := by
  unfold np_unique
  rw [List.mem_dedup]
  exact (np_sort_perm l).mem_iff

theorem np_unique_nodup {α : Type} [LinearOrder α] (l : List α) :
    (np_unique l).Nodup :=
  List.nodup_dedup _

theorem mapE_eq_ok_of {α β : Type} (f : α → Except String β) (g : α → β)
    (l : List α) (h : ∀ a ∈ l, f a = .ok (g a)) :
    mapE f l = .ok (l.map g) := by
  induction l with
  | nil => rfl
  | cons a as ih =>
    simp only [mapE, h a (List.mem_cons_self a as),
      ih (fun x hx => h x (List.mem_cons_of_mem a hx)), List.map_cons]

theorem mapE_ne_ok {α β : Type} (f : α → Except String β) {l : List α} {a : α}
    (ha : a ∈ l) (hf : ∀ b, f a ≠ .ok b) : ∀ bs, mapE f l ≠ .ok bs := by
  induction l with
  | nil => cases ha
  | cons x xs ih =>
    intro bs
    rcases List.mem_cons.mp ha with rfl | hmem
    · simp only [mapE]
      cases hfa : f a with
      | error e => simp
      | ok b => exact absurd hfa (hf b)
    · simp only [mapE]
      cases hfx : f x with
      | error e => simp
      | ok b =>
        cases hrest : mapE f xs with
        | error e => simp
        | ok bs' => exact absurd hrest (ih hmem bs')

/-! ## `get_category_sizes` (src/rtdl/data.py, lines 324-373)

The signed-integer dtype check of the source becomes the element type `ℤ`.
`np.unique` returns a sorted array, so `unique_values.min()` is its head and
`unique_values.max()` its last element; an empty column makes `.min()` raise
(numpy: reduction of a zero-size array). -/

/-- The body of the per-column loop of `get_category_sizes`
(`np.unique` is sorted, so `.min()` is its head and `.max()` its last
element; `.min()` on an empty array raises). -/
def category_size_of_column (col : List ℤ) : Except String ℕ :=
  let unique_values := np_unique col
  if unique_values.isEmpty then
    .error "zero-size array to reduction operation minimum"
  else
    let min_value := unique_values.headD 0
    if min_value ≠ 0 then
      .error "The minimum value of the column is not zero"
    else
      let max_value := unique_values.getLastD 0
      if max_value + 1 ≠ (unique_values.length : ℤ) then
        .error "The values of the column do not fully cover the range from zero to the maximum value"
      else .ok unique_values.length

def get_category_sizes (X : List (List ℤ)) : Except String (List ℕ) :=
  if rectB X = false then .error "X must be two-dimensional"
  else
    mapE (fun f => category_size_of_column (columnOf X 0 f))
      (List.range (nColsOf X))

theorem category_size_of_column_ok (col : List ℤ)
    (h0 : (np_unique col).headD 0 = 0)
    (h1 : (np_unique col).getLastD 0 + 1 = ((np_unique col).length : ℤ)) :
    category_size_of_column col = .ok (np_unique col).length := by
  have hne : (np_unique col).isEmpty = false := by
    cases hu : np_unique col with
    | nil => rw [hu] at h1; simp at h1
    | cons a l => simp [List.isEmpty]
  have h0' : (np_unique col).head?.getD 0 = 0 := by simpa using h0
  have h1' : (np_unique col).getLast?.getD 0 + 1 = ((np_unique col).length : ℤ) := by
    simpa using h1
  simp [category_size_of_column, hne, h0', h1']

theorem category_size_of_column_err (col : List ℤ)
    (h : (np_unique col).headD 0 ≠ 0 ∨
         (np_unique col).getLastD 0 + 1 ≠ ((np_unique col).length : ℤ)) :
    ∀ b, category_size_of_column col ≠ .ok b := by
  intro b
  by_cases hemp : (np_unique col).isEmpty
  · simp [category_size_of_column, hemp]
  · by_cases h0 : (np_unique col).headD 0 = 0
    · have h1 : (np_unique col).getLastD 0 + 1 ≠ ((np_unique col).length : ℤ) := by
        rcases h with h | h
        · exact absurd h0 h
        · exact h
      have h0' : (np_unique col).head?.getD 0 = 0 := by simpa using h0
      have h1' : ¬ (np_unique col).getLast?.getD 0 + 1 = ((np_unique col).length : ℤ) := by
        simpa using h1
      simp [category_size_of_column, hemp, h0', h1']
    · have h0' : ¬ (np_unique col).head?.getD 0 = 0 := by simpa using h0
      simp [category_size_of_column, hemp, h0']

/-- C9: `get_category_sizes` returns the per-column distinct-value counts on
2-D integer input whose columns are zero-based contiguous ranges (in
particular `[3, 2, 1]` on the documented example), and returns an error —
never a result — as soon as the minimum of some column is not `0` or its
`max + 1` differs from its distinct-value count. -/
theorem get_category_sizes_spec :
    (∀ X : List (List ℤ), rectB X = true →
      (∀ f, f < nColsOf X →
        (np_unique (columnOf X 0 f)).headD 0 = 0 ∧
        (np_unique (columnOf X 0 f)).getLastD 0 + 1
          = ((np_unique (columnOf X 0 f)).length : ℤ)) →
      get_category_sizes X
        = .ok ((List.range (nColsOf X)).map
            (fun f => (np_unique (columnOf X 0 f)).length)))
    ∧ get_category_sizes [[0,0,0],[1,0,0],[2,1,0]] = .ok [3,2,1]
    ∧ (∀ X : List (List ℤ), ∀ f, f < nColsOf X →
        ((np_unique (columnOf X 0 f)).headD 0 ≠ 0 ∨
         (np_unique (columnOf X 0 f)).getLastD 0 + 1
           ≠ ((np_unique (columnOf X 0 f)).length : ℤ)) →
        ∀ sizes, get_category_sizes X ≠ .ok sizes) := by
  refine ⟨?_, by rfl, ?_⟩
  · intro X hrect hcols
    unfold get_category_sizes
    rw [hrect]
    simp only [Bool.true_eq_false, if_false]
    exact mapE_eq_ok_of _ _ _ (fun f hf => by
      have hf' := List.mem_range.mp hf
      exact category_size_of_column_ok _ (hcols f hf').1 (hcols f hf').2)
  · intro X f hf hviol sizes
    unfold get_category_sizes
    cases hrect : rectB X with
    | false => simp
    | true =>
      simp only [Bool.true_eq_false, if_false]
      exact mapE_ne_ok _ (List.mem_range.mpr hf)
        (category_size_of_column_err _ hviol) sizes

/-- Witness for C9: the success branch at the documented example and the
failure branch at a column with values `{0, 2}` (gap at `1`). -/
theorem get_category_sizes_spec_witness :
    get_category_sizes [[0,0,0],[1,0,0],[2,1,0]]
        = .ok ((List.range (nColsOf [[0,0,0],[1,0,0],[2,1,0]])).map
            (fun f => (np_unique (columnOf [[0,0,0],[1,0,0],[2,1,0]] 0 f)).length))
    ∧ (∀ sizes, get_category_sizes [[0],[2]] ≠ .ok sizes) :=
  ⟨get_category_sizes_spec.1 [[0,0,0],[1,0,0],[2,1,0]] (by decide) (by decide),
   fun sizes =>
     get_category_sizes_spec.2.2 [[0],[2]] 0 (by decide) (by decide) sizes⟩

/-! ## Extended rationals

`ℚ` extended with `-inf` / `+inf`, modelling the IEEE infinities that the
source introduces with `math.inf` (exact values stay in `ℚ`). -/

inductive XRat : Type
  | negInf
  | fin (q : ℚ)
  | posInf
deriving DecidableEq

/-- Strict comparison on extended rationals (`Bool`-valued, as the
elementwise comparison of the backends). -/
def XRat.blt : XRat → XRat → Bool
  | negInf, negInf => false
  | negInf, _ => true
  | fin _, negInf => false
  | fin q, fin r => decide (q < r)
  | fin _, posInf => true
  | posInf, _ => false

instance : LT XRat := ⟨fun a b => XRat.blt a b = true⟩

instance : LE XRat := ⟨fun a b => XRat.blt b a = false⟩

theorem XRat.lt_def {a b : XRat} : a < b ↔ XRat.blt a b = true := Iff.rfl

theorem XRat.le_def {a b : XRat} : a ≤ b ↔ XRat.blt b a = false := Iff.rfl

theorem XRat.blt_trans {a b c : XRat} (h1 : XRat.blt a b = true)
    (h2 : XRat.blt b c = true) : XRat.blt a c = true := by
  cases a <;> cases b <;> cases c <;> simp_all [XRat.blt]
  exact lt_trans h1 h2

theorem XRat.blt_asymm {a b : XRat} (h : XRat.blt a b = true) :
    XRat.blt b a = false := by
  cases a <;> cases b <;> simp_all [XRat.blt]
  exact le_of_lt h

/-! ## List indexing helpers -/

theorem getD_map_of_lt {α β : Type} (g : α → β) (l : List α) {i : ℕ}
    (h : i < l.length) (d : α) (d' : β) :
    (l.map g).getD i d' = g (l.getD i d) := by
  rw [List.getD_eq_getElem?_getD, List.getD_eq_getElem?_getD, List.getElem?_map,
    List.getElem?_eq_getElem h]
  rfl

theorem getD_range_of_lt {n i : ℕ} (h : i < n) (d : ℕ) :
    (List.range n).getD i d = i := by
  rw [List.getD_eq_getElem?_getD, List.getElem?_range h]
  rfl

theorem zipWith_getD {α β γ : Type} (f : α → β → γ) :
    ∀ (as : List α) (bs : List β) (i : ℕ), i < as.length → i < bs.length →
      ∀ (da : α) (db : β) (dc : γ),
      (List.zipWith f as bs).getD i dc = f (as.getD i da) (bs.getD i db) := by
  intro as
  induction as with
  | nil => intro bs i h; simp at h
  | cons a as ih =>
    intro bs i h h' da db dc
    cases bs with
    | nil => simp at h'
    | cons b bs =>
      cases i with
      | zero => rfl
      | succ i =>
        simpa using ih bs i (by simpa using h) (by simpa using h') da db dc

theorem getD_eq_getElem_of_lt {α : Type} (l : List α) {i : ℕ}
    (h : i < l.length) (d : α) : l.getD i d = l[i] := by
  rw [List.getD_eq_getElem?_getD, List.getElem?_eq_getElem h]
  rfl

/-! ## Python string containment

`_LVR_encoding` (lines 205-210) decides dtype compatibility with
`str(type(left)) not in str(values.dtype)`: a *substring* test between the
printed form of a Python scalar class and the printed
form of a torch dtype, e.g. `torch.int64`.  We model strings as `List Char`
and the `in` operator as `hasSub`. -/

/-- Python `s.startswith(pat)` on character lists. -/
def leadsWith : List Char → List Char → Bool
  | [], _ => true
  | _ :: _, [] => false
  | a :: as, b :: bs => a == b && leadsWith as bs

/-- Python `pat in s` (substring containment) on character lists. -/
def hasSub (pat : List Char) : List Char → Bool
  | [] => leadsWith pat []
  | c :: rest => leadsWith pat (c :: rest) || hasSub pat rest

theorem mem_of_leadsWith :
    ∀ {pat s : List Char}, leadsWith pat s = true → ∀ {c}, c ∈ pat → c ∈ s := by
  intro pat
  induction pat with
  | nil => intro s _ c hc; cases hc
  | cons a as ih =>
    intro s h c hc
    cases s with
    | nil => simp [leadsWith] at h
    | cons b bs =>
      simp only [leadsWith, Bool.and_eq_true, beq_iff_eq] at h
      rcases List.mem_cons.mp hc with rfl | hmem
      · exact List.mem_cons.mpr (Or.inl h.1)
      · exact List.mem_cons.mpr (Or.inr (ih h.2 hmem))

theorem mem_of_hasSub :
    ∀ {pat s : List Char}, hasSub pat s = true → ∀ {c}, c ∈ pat → c ∈ s := by
  intro pat s
  induction s with
  | nil => intro h c hc; exact mem_of_leadsWith h hc
  | cons b bs ih =>
    intro h c hc
    simp only [hasSub, Bool.or_eq_true] at h
    rcases h with h | h
    · exact mem_of_leadsWith h hc
    · exact List.mem_cons_of_mem b (ih h hc)

/-! ## Scalars, dtypes and their printed forms -/

/-- The two Python scalar classes admitted by the `Number` type variable of
the source (`int` and `float`). -/
inductive ScalarClass : Type
  | int
  | float
deriving DecidableEq

/-- A Python scalar: its class together with its (exact) numeric value. -/
structure PyScalar : Type where
  cls : ScalarClass
  val : ℚ

/-- The apostrophe character (U+0027). -/
def apos : Char := Char.ofNat 39

/-- Printed form str(type(x)) of a Python scalar class, such as
`<class` `int>` with the quotes of the original text elided here. -/
def scalarClassChars : ScalarClass → List Char
  | .int => "<class ".data ++ [apos] ++ "int".data ++ [apos, '>']
  | .float => "<class ".data ++ [apos] ++ "float".data ++ [apos, '>']

/-- The torch tensor dtypes. -/
inductive TorchDtype : Type
  | float16 | float32 | float64 | bfloat16
  | uint8 | int8 | int16 | int32 | int64
  | bool | complex64 | complex128
deriving DecidableEq

/-- Printed form str(dtype) of a torch dtype, e.g. `torch.int64`. -/
def dtypeChars : TorchDtype → List Char
  | .float16 => "torch.float16".data
  | .float32 => "torch.float32".data
  | .float64 => "torch.float64".data
  | .bfloat16 => "torch.bfloat16".data
  | .uint8 => "torch.uint8".data
  | .int8 => "torch.int8".data
  | .int16 => "torch.int16".data
  | .int32 => "torch.int32".data
  | .int64 => "torch.int64".data
  | .bool => "torch.bool".data
  | .complex64 => "torch.complex64".data
  | .complex128 => "torch.complex128".data

/-- Dtypes accepted by torch advanced indexing when used as an index
tensor. -/
def TorchDtype.isIndexKind : TorchDtype → Bool
  | .uint8 | .int8 | .int16 | .int32 | .int64 | .bool => true
  | _ => false

theorem lt_mem_scalarClassChars (c : ScalarClass) : '<' ∈ scalarClassChars c := by
  cases c <;> decide

theorem lt_not_mem_dtypeChars (dt : TorchDtype) : '<' ∉ dtypeChars dt := by
  cases dt <;> decide

/-- The printed form of a Python scalar class is never a substring of the
printed form of a torch dtype (the former contains `<`, the latter does
not). -/
theorem hasSub_scalar_dtype (c : ScalarClass) (dt : TorchDtype) :
    hasSub (scalarClassChars c) (dtypeChars dt) = false := by
  cases hb : hasSub (scalarClassChars c) (dtypeChars dt) with
  | false => rfl
  | true =>
    exact absurd (mem_of_hasSub hb (lt_mem_scalarClassChars c))
      (lt_not_mem_dtypeChars dt)

/-! ## `_LVR_encoding` (src/rtdl/data.py, lines 196-238)

The element dtype of `values` is carried explicitly as `dt`.  Line 203 of
the source reads `indices = as_tensor(values)` — it discards the `indices`
argument and aliases it to `values`; the embedding reproduces this with
`let indices := values`.  The final branch models the torch indexing
semantics reached only if every guard passed (floating index tensors and
out-of-range indices raise `IndexError`; in-range negative integer indices
wrap around); it is unreachable, see `LVR_dtype_guard_always_fires`. -/

def dtype_incompat_msg : String :=
  "The values array has dtype incompatible with left and right"

def shape2 {α : Type} (M : List (List α)) : ℕ × ℕ := (M.length, nColsOf M)

def _LVR_encoding (dt : TorchDtype) (values : List (List ℚ))
    (indices : List (List ℚ)) (d_encoding : ℕ) (left right : PyScalar) :
    Except String (List (List (List ℚ))) :=
  let indices := values
  if left.cls ≠ right.cls then
    .error "left and right must be of the same type"
  else if hasSub (scalarClassChars left.cls) (dtypeChars dt) = false then
    .error dtype_incompat_msg
  else if rectB values = false then
    .error "values must have two dimensions"
  else if shape2 values ≠ shape2 indices then
    .error "values and indices must be of the same shape"
  else if indices.any (fun row => row.any (fun q => decide ((d_encoding : ℚ) ≤ q))) then
    .error "All indices must be less than d_encoding"
  else if TorchDtype.isIndexKind dt = false then
    .error "tensors used as indices must be long int byte or bool tensors"
  else if indices.any (fun row => row.any (fun q => decide (q < -(d_encoding : ℚ)))) then
    .error "index out of range"
  else
    .ok ((List.range values.length).map (fun o =>
      (List.range (nColsOf values)).map (fun f =>
        let idx : ℚ := entry2 indices 0 o f
        let v : ℚ := entry2 values 0 o f
        let base := (List.range d_encoding).map (fun p =>
          if (p : ℚ) < idx then left.val else right.val)
        base.set (if idx < 0 then (⌊idx⌋ + d_encoding).toNat else ⌊idx⌋.toNat) v)))

/-- Source function `_get_scalar_class` (lines 245-251): scalar class from
the dtype name. -/
def _get_scalar_class (dt : TorchDtype) : Except String ScalarClass :=
  if hasSub "int".data (dtypeChars dt) then .ok .int
  else if hasSub "float".data (dtypeChars dt) then .ok .float
  else .error "unsupported dtype"

/-- Source function `ordinal_binary_encoding` (lines 266-279): all-ones values,
`left = Scalar(1)`, `right = Scalar(0)`. -/
def ordinal_binary_encoding (indices : List (List ℚ)) (d_encoding : ℕ)
    (dtype : TorchDtype) : Except String (List (List (List ℚ))) :=
  match _get_scalar_class dtype with
  | .error e => .error e
  | .ok Scalar =>
    _LVR_encoding dtype (indices.map (fun r => r.map (fun _ => (1 : ℚ))))
      indices d_encoding ⟨Scalar, 1⟩ ⟨Scalar, 0⟩

/-! ## `piecewise_linear_encoding` (src/rtdl/data.py, lines 296-321) -/

def ple_requirements_msg : String :=
  "values do not satisfy requirements for the piecewise linear encoding. Use rtdl.data.compute_piecewise_linear_bin_values to obtain valid values."

/-- The test `(values < lower_bounds).any()` where `lower_bounds` is `0` everywhere
except `-inf` at slots with `index == 0` (lines 306-309). -/
def lower_violation (values : List (List ℚ)) (indices : List (List ℕ)) : Bool :=
  (values.zip indices).any (fun rp =>
    (rp.1.zip rp.2).any (fun p =>
      XRat.blt (.fin p.1) (if p.2 = 0 then .negInf else .fin 0)))

/-- The test `(values > upper_bounds).any()` where `upper_bounds` is `1` everywhere
except `+inf` at slots with `index + 1 == d_encoding` (lines 313-316). -/
def upper_violation (values : List (List ℚ)) (indices : List (List ℕ))
    (d_encoding : ℕ) : Bool :=
  (values.zip indices).any (fun rp =>
    (rp.1.zip rp.2).any (fun p =>
      XRat.blt (if p.2 + 1 = d_encoding then .posInf else .fin 1) (.fin p.1)))

/-- Source function `piecewise_linear_encoding`: bound masks need `values` and `indices` of
equal shape (torch raises on a mask-shape mismatch), then the two domain
checks, then `_LVR_encoding(values, indices, d_encoding, 1.0, 0.0)`. -/
def piecewise_linear_encoding (dt : TorchDtype) (values : List (List ℚ))
    (indices : List (List ℕ)) (d_encoding : ℕ) :
    Except String (List (List (List ℚ))) :=
  if shape2 values ≠ shape2 indices then
    .error "The shape of the mask must match the shape of the indexed tensor"
  else if lower_violation values indices then .error ple_requirements_msg
  else if upper_violation values indices d_encoding then .error ple_requirements_msg
  else
    _LVR_encoding dt values (indices.map (fun r => r.map (fun i => (i : ℚ))))
      d_encoding ⟨.float, 1⟩ ⟨.float, 0⟩

/-- Whenever `left` and `right` share a scalar class (as in every call site),
`_LVR_encoding` takes the dtype-incompatibility branch. -/
theorem LVR_error_of_cls_eq (dt : TorchDtype) (values indices : List (List ℚ))
    (d : ℕ) (left right : PyScalar) (h : left.cls = right.cls) :
    _LVR_encoding dt values indices d left right = .error dtype_incompat_msg := by
  simp [_LVR_encoding, h, hasSub_scalar_dtype]

/-- C10: the guard `str(type(left)) not in str(values.dtype)` of
`_LVR_encoding` is true for every torch dtype when `left` is a Python `int`
or `float` (the printed scalar class is never a
substring of a printed dtype such as `torch.int64`), so `_LVR_encoding`
with matching fill-scalar classes, every call of `ordinal_binary_encoding`,
and every domain-valid call of `piecewise_linear_encoding` end in the
dtype-incompatibility `ValueError` and never return an encoding. -/
theorem LVR_dtype_guard_always_fires :
    (∀ (c : ScalarClass) (dt : TorchDtype),
        hasSub (scalarClassChars c) (dtypeChars dt) = false)
    ∧ (∀ (dt : TorchDtype) (values indices : List (List ℚ)) (d : ℕ)
        (left right : PyScalar), left.cls = right.cls →
        _LVR_encoding dt values indices d left right = .error dtype_incompat_msg)
    ∧ (∀ (indices : List (List ℚ)) (d : ℕ) (dtype : TorchDtype)
        (enc : List (List (List ℚ))),
        ordinal_binary_encoding indices d dtype ≠ .ok enc)
    ∧ (∀ (dt : TorchDtype) (values : List (List ℚ)) (indices : List (List ℕ))
        (d : ℕ),
        shape2 values = shape2 indices →
        lower_violation values indices = false →
        upper_violation values indices d = false →
        piecewise_linear_encoding dt values indices d
          = .error dtype_incompat_msg) := by
  refine ⟨hasSub_scalar_dtype, LVR_error_of_cls_eq, ?_, ?_⟩
  · intro indices d dtype enc
    unfold ordinal_binary_encoding
    cases hsc : _get_scalar_class dtype with
    | error e => simp [hsc]
    | ok c =>
      simp only [hsc]
      rw [LVR_error_of_cls_eq dtype _ indices d ⟨c, 1⟩ ⟨c, 0⟩ rfl]
      simp
  · intro dt values indices d hsh hlo hup
    unfold piecewise_linear_encoding
    rw [if_neg (by simp [hsh]), if_neg (by simp [hlo]), if_neg (by simp [hup])]
    exact LVR_error_of_cls_eq _ _ _ _ _ _ rfl

/-- Witness for C10 at concrete inputs: the `int` scalar class against
`torch.int64`, `_LVR_encoding` on a well-formed 1×1 call, an
`ordinal_binary_encoding` call, and a domain-valid
`piecewise_linear_encoding` call. -/
theorem LVR_dtype_guard_always_fires_witness :
    hasSub (scalarClassChars .int) (dtypeChars .int64) = false
    ∧ _LVR_encoding .int64 [[1]] [[0]] 1 ⟨.int, 1⟩ ⟨.int, 0⟩
        = .error dtype_incompat_msg
    ∧ (∀ enc, ordinal_binary_encoding [[0]] 1 .int64 ≠ .ok enc)
    ∧ piecewise_linear_encoding .float32 [[(0 : ℚ)]] [[0]] 2
        = .error dtype_incompat_msg :=
  ⟨LVR_dtype_guard_always_fires.1 .int .int64,
   LVR_dtype_guard_always_fires.2.1 .int64 [[1]] [[0]] 1 ⟨.int, 1⟩ ⟨.int, 0⟩ rfl,
   fun enc => LVR_dtype_guard_always_fires.2.2.1 [[0]] 1 .int64 enc,
   LVR_dtype_guard_always_fires.2.2.2 .float32 [[(0 : ℚ)]] [[0]] 2 rfl
     (by decide) (by decide)⟩

/-- C1 (code bug): the spec describes `_LVR_encoding` as returning the
left/value/right pattern, matching the function docstring, but the code
never returns: at the well-formed input `values = [[5]]`, `indices = [[0]]`,
`d_encoding = 1`, `left = right = 0` (Python ints, `values` an `int64`
tensor) it raises the dtype-incompatibility `ValueError`, because
`str(type(left))` is never a substring of `str(values.dtype)`; line 203
additionally overwrites `indices` with `values`. -/
theorem LVR_encoding_rejects_wellformed_input :
    _LVR_encoding .int64 [[5]] [[0]] 1 ⟨.int, 0⟩ ⟨.int, 0⟩
      = .error dtype_incompat_msg := rfl

/-- C3 (code bug): the spec describes `ordinal_binary_encoding` as producing
the thermometer encoding, but every call reaches the dtype-incompatibility
`ValueError` of `_LVR_encoding`: concretely at `indices = [[2]]`,
`d_encoding = 3`, `dtype = torch.float32`. -/
theorem ordinal_binary_encoding_rejects_input :
    ordinal_binary_encoding [[2]] 3 .float32 = .error dtype_incompat_msg := rfl

/-- C5 (code bug): the two domain checks of `piecewise_linear_encoding`
accept the middle-bin value `1` at index `1` of `3`, exactly as the spec
says — but the function still raises: the subsequent `_LVR_encoding` call
hits the dtype-incompatibility `ValueError`, so no input (valid or not)
ever produces an encoding. -/
theorem piecewise_linear_encoding_rejects_valid_values :
    piecewise_linear_encoding .float32 [[(1 : ℚ)]] [[1]] 3
      = .error dtype_incompat_msg := rfl

/-! ## `compute_bin_indices` (src/rtdl/data.py, lines 103-126) -/

/-- Model of `torch.bucketize(v, boundaries, right=True)`: the index of the first
boundary strictly greater than `v` (the boundary count when none is). -/
def bucketize (v : XRat) (boundaries : List XRat) : ℕ :=
  boundaries.findIdx (fun b => XRat.blt v b)

/-- Model of `torch.cat((neg_inf, column_bin_edges[1:-1], inf))` (line 120): the edge
sequence with its first and last entries replaced by the infinities. -/
def sentinelEdges (es : List ℚ) : List XRat :=
  XRat.negInf :: ((es.drop 1).dropLast.map XRat.fin ++ [XRat.posInf])

/-- Per-column loop body of `compute_bin_indices` (lines 118-124). -/
def binColumn (col : List ℚ) (es : List ℚ) : List ℕ :=
  col.map (fun v => bucketize (XRat.fin v) (sentinelEdges es) - 1)

/-- Model of `torch.stack(column_results, 1)`: reassemble per-column lists into a
row-major 2-D array. -/
def stack1 {α : Type} (dflt : α) (nrows : ℕ) (cols : List (List α)) :
    List (List α) :=
  (List.range nrows).map (fun o => cols.map (fun c => c.getD o dflt))

def compute_bin_indices (X : List (List ℚ)) (bin_edges : List (List ℚ)) :
    Except String (List (List ℕ)) :=
  if rectB X = false then .error "X must have two dimensions"
  else if nColsOf X ≠ bin_edges.length then
    .error "The number of columns in X must be equal to the size of the bin_edges list"
  else
    .ok (stack1 0 X.length
      (List.zipWith binColumn
        ((List.range (nColsOf X)).map (columnOf X 0)) bin_edges))

theorem stack1_entry {α : Type} (dflt : α) (nrows : ℕ) (cols : List (List α))
    {o f : ℕ} (ho : o < nrows) (hf : f < cols.length) :
    entry2 (stack1 dflt nrows cols) dflt o f = (cols.getD f []).getD o dflt := by
  unfold entry2 stack1
  rw [getD_map_of_lt _ (List.range nrows) (by simpa using ho) 0 []]
  rw [getD_range_of_lt ho, getD_map_of_lt _ cols hf [] dflt]

theorem sentinelEdges_length (es : List ℚ) (h : 2 ≤ es.length) :
    (sentinelEdges es).length = es.length := by
  simp only [sentinelEdges, List.length_cons, List.length_append,
    List.length_map, List.length_dropLast, List.length_drop,
    List.length_singleton, List.length_nil]
  omega

theorem sentinelEdges_pairwise (es : List ℚ)
    (hinc : List.Pairwise (· < ·) es) :
    List.Pairwise (fun a b : XRat => XRat.blt a b = true) (sentinelEdges es) := by
  unfold sentinelEdges
  apply List.pairwise_cons.mpr
  constructor
  · intro b hb
    rcases List.mem_append.mp hb with hb | hb
    · rcases List.mem_map.mp hb with ⟨q, _, rfl⟩
      rfl
    · rcases List.mem_singleton.mp hb with rfl
      rfl
  · apply List.pairwise_append.mpr
    refine ⟨?_, by simp, ?_⟩
    · apply List.pairwise_map.mpr
      have hsub : List.Pairwise (· < ·) ((es.drop 1).dropLast) :=
        List.Pairwise.sublist
          (List.Sublist.trans (List.dropLast_sublist _) (List.drop_sublist 1 es))
          hinc
      exact hsub.imp (fun h => by simpa [XRat.blt] using h)
    · intro a ha b hb
      rcases List.mem_map.mp ha with ⟨q, _, rfl⟩
      rcases List.mem_singleton.mp hb with rfl
      rfl

/-- The half-open-interval characterisation of `bucketize` over the
sentinel-extended edges of a strictly increasing edge sequence: the produced
index is at most `len(edges) - 2`, the value lies in the interval of that
index, and the interval of no other index contains it. -/
theorem bucketize_sentinel_spec (es : List ℚ) (v : ℚ)
    (hlen : 2 ≤ es.length) (hinc : List.Pairwise (· < ·) es) :
    (bucketize (.fin v) (sentinelEdges es) - 1) ≤ es.length - 2
    ∧ (sentinelEdges es).getD (bucketize (.fin v) (sentinelEdges es) - 1) .posInf
        ≤ XRat.fin v
    ∧ XRat.fin v
        < (sentinelEdges es).getD (bucketize (.fin v) (sentinelEdges es) - 1 + 1) .negInf
    ∧ ∀ j, j ≤ es.length - 2 →
        (sentinelEdges es).getD j .posInf ≤ XRat.fin v →
        XRat.fin v < (sentinelEdges es).getD (j + 1) .negInf →
        j = bucketize (.fin v) (sentinelEdges es) - 1 := by
  have hblen : (sentinelEdges es).length = es.length := sentinelEdges_length es hlen
  have hpw := sentinelEdges_pairwise es hinc
  have hmono : ∀ (p q : ℕ) (hp : p < (sentinelEdges es).length)
      (hq : q < (sentinelEdges es).length), p < q →
      XRat.blt (sentinelEdges es)[p] (sentinelEdges es)[q] = true :=
    fun p q hp hq hpq => List.pairwise_iff_getElem.mp hpw p q hp hq hpq
  have hj1 : 1 ≤ bucketize (.fin v) (sentinelEdges es) := by
    unfold bucketize sentinelEdges
    rw [List.findIdx_cons]
    simp [XRat.blt]
  have hjlt : bucketize (.fin v) (sentinelEdges es) < (sentinelEdges es).length := by
    apply List.findIdx_lt_length.mpr
    exact ⟨.posInf, by simp [sentinelEdges], rfl⟩
  set j := bucketize (.fin v) (sentinelEdges es) with hjdef
  have hfind : List.findIdx (fun b => XRat.blt (XRat.fin v) b) (sentinelEdges es) = j :=
    rfl
  have hilt : j - 1 < (sentinelEdges es).length := lt_of_le_of_lt (Nat.sub_le _ _) hjlt
  have hnot : XRat.blt (.fin v) (sentinelEdges es)[j - 1] = false :=
    List.not_of_lt_findIdx (by rw [hfind]; omega)
  have hyes : XRat.blt (.fin v) (sentinelEdges es)[j] = true :=
    List.findIdx_getElem (w := hjlt)
  have hsucc : j - 1 + 1 = j := by omega
  refine ⟨by omega, ?_, ?_, ?_⟩
  · rw [getD_eq_getElem_of_lt _ hilt]
    exact hnot
  · rw [hsucc, getD_eq_getElem_of_lt _ hjlt]
    exact hyes
  · intro j' hj'le hge hlt'
    have hj'lt : j' < (sentinelEdges es).length := by omega
    have hj'1lt : j' + 1 < (sentinelEdges es).length := by omega
    rw [getD_eq_getElem_of_lt _ hj'lt] at hge
    rw [getD_eq_getElem_of_lt _ hj'1lt] at hlt'
    rw [XRat.le_def] at hge
    rw [XRat.lt_def] at hlt'
    by_contra hne
    rcases Nat.lt_or_ge j' (j - 1) with hcase | hcase
    · -- j' + 1 ≤ j - 1 : the value would be below edge j - 1
      have hle : j' + 1 ≤ j - 1 := hcase
      rcases Nat.eq_or_lt_of_le hle with heq | hlt2
      · have hEe : (sentinelEdges es)[j' + 1] = (sentinelEdges es)[j - 1] := by
          rw [← getD_eq_getElem_of_lt _ hj'1lt XRat.negInf,
            ← getD_eq_getElem_of_lt _ hilt XRat.negInf, heq]
        rw [hEe] at hlt'
        rw [hlt'] at hnot
        cases hnot
      · have hm := hmono (j' + 1) (j - 1) hj'1lt hilt hlt2
        have := XRat.blt_trans hlt' hm
        rw [this] at hnot
        cases hnot
    · -- j ≤ j' : the value would be at or above edge j' ≥ j
      have hle : j ≤ j' := by omega
      rcases Nat.eq_or_lt_of_le hle with heq | hlt2
      · have hEe : (sentinelEdges es)[j'] = (sentinelEdges es)[j] := by
          rw [← getD_eq_getElem_of_lt _ hj'lt XRat.negInf,
            ← getD_eq_getElem_of_lt _ hjlt XRat.negInf, heq]
        rw [hEe] at hge
        rw [hyes] at hge
        cases hge
      · have hm := hmono j j' hjlt hj'lt hlt2
        have := XRat.blt_trans hyes hm
        rw [this] at hge
        cases hge

/-- C2: on a 2-D matrix with one strictly increasing edge sequence per
column, `compute_bin_indices` succeeds and returns a matrix of the same
shape whose entry at `(o, f)` is the unique index `i` with
`edges[i] ≤ x < edges[i+1]` once the first and last edges are replaced by
`-inf` / `+inf`; in particular every index is at most `len(edges) - 2`. -/
theorem compute_bin_indices_spec (X : List (List ℚ)) (bin_edges : List (List ℚ))
    (hrect : rectB X = true)
    (hcols : nColsOf X = bin_edges.length)
    (hedge : ∀ es ∈ bin_edges, 2 ≤ es.length ∧ List.Pairwise (· < ·) es) :
    ∃ B, compute_bin_indices X bin_edges = .ok B
      ∧ B.length = X.length
      ∧ (∀ row ∈ B, row.length = nColsOf X)
      ∧ ∀ o f, o < X.length → f < nColsOf X →
          entry2 B 0 o f ≤ (bin_edges.getD f []).length - 2
          ∧ (sentinelEdges (bin_edges.getD f [])).getD (entry2 B 0 o f) .posInf
              ≤ XRat.fin (entry2 X 0 o f)
          ∧ XRat.fin (entry2 X 0 o f)
              < (sentinelEdges (bin_edges.getD f [])).getD (entry2 B 0 o f + 1) .negInf
          ∧ ∀ j, j ≤ (bin_edges.getD f []).length - 2 →
              (sentinelEdges (bin_edges.getD f [])).getD j .posInf
                ≤ XRat.fin (entry2 X 0 o f) →
              XRat.fin (entry2 X 0 o f)
                < (sentinelEdges (bin_edges.getD f [])).getD (j + 1) .negInf →
              j = entry2 B 0 o f := by
  refine ⟨stack1 0 X.length
    (List.zipWith binColumn
      ((List.range (nColsOf X)).map (columnOf X 0)) bin_edges), ?_, ?_, ?_, ?_⟩
  · unfold compute_bin_indices
    rw [if_neg (by simp [hrect]), if_neg (by simp [hcols])]
  · simp [stack1]
  · intro row hrow
    unfold stack1 at hrow
    rcases List.mem_map.mp hrow with ⟨o, _, rfl⟩
    simp [List.length_zipWith, hcols]
  · intro o f ho hf
    have hfb : f < bin_edges.length := hcols ▸ hf
    have hfB : f < (List.zipWith binColumn
        ((List.range (nColsOf X)).map (columnOf X 0)) bin_edges).length := by
      simp only [List.length_zipWith, List.length_map, List.length_range]
      omega
    have hkey : entry2 (stack1 0 X.length
        (List.zipWith binColumn
          ((List.range (nColsOf X)).map (columnOf X 0)) bin_edges)) 0 o f
        = bucketize (.fin (entry2 X 0 o f))
            (sentinelEdges (bin_edges.getD f [])) - 1 := by
      rw [stack1_entry 0 X.length _ ho hfB]
      rw [zipWith_getD binColumn _ bin_edges f (by simpa using hf) hfb [] [] []]
      rw [getD_map_of_lt (columnOf X 0) (List.range (nColsOf X))
        (by simpa using hf) 0 []]
      rw [getD_range_of_lt hf 0]
      unfold binColumn
      rw [getD_map_of_lt _ (columnOf X 0 f) (by simpa [columnOf] using ho) 0 0]
      unfold columnOf
      rw [getD_map_of_lt (fun r => r.getD f 0) X ho [] 0]
      rfl
    have hmem : bin_edges.getD f [] ∈ bin_edges := by
      rw [getD_eq_getElem_of_lt bin_edges hfb []]
      exact List.getElem_mem _
    obtain ⟨hlen, hinc⟩ := hedge _ hmem
    rw [hkey]
    exact bucketize_sentinel_spec (bin_edges.getD f []) (entry2 X 0 o f) hlen hinc

/-- Witness for C2 at `X = [[3]]`, `bin_edges = [[0, 1, 5]]`. -/
theorem compute_bin_indices_spec_witness :
    ∃ B, compute_bin_indices [[(3 : ℚ)]] [[(0 : ℚ), 1, 5]] = .ok B
      ∧ B.length = [[(3 : ℚ)]].length
      ∧ (∀ row ∈ B, row.length = nColsOf [[(3 : ℚ)]])
      ∧ ∀ o f, o < [[(3 : ℚ)]].length → f < nColsOf [[(3 : ℚ)]] →
          entry2 B 0 o f ≤ ([[(0 : ℚ), 1, 5]].getD f []).length - 2
          ∧ (sentinelEdges ([[(0 : ℚ), 1, 5]].getD f [])).getD (entry2 B 0 o f) .posInf
              ≤ XRat.fin (entry2 [[(3 : ℚ)]] 0 o f)
          ∧ XRat.fin (entry2 [[(3 : ℚ)]] 0 o f)
              < (sentinelEdges ([[(0 : ℚ), 1, 5]].getD f [])).getD
                  (entry2 B 0 o f + 1) .negInf
          ∧ ∀ j, j ≤ ([[(0 : ℚ), 1, 5]].getD f []).length - 2 →
              (sentinelEdges ([[(0 : ℚ), 1, 5]].getD f [])).getD j .posInf
                ≤ XRat.fin (entry2 [[(3 : ℚ)]] 0 o f) →
              XRat.fin (entry2 [[(3 : ℚ)]] 0 o f)
                < (sentinelEdges ([[(0 : ℚ), 1, 5]].getD f [])).getD (j + 1) .negInf →
              j = entry2 B 0 o f :=
  compute_bin_indices_spec [[(3 : ℚ)]] [[(0 : ℚ), 1, 5]] (by decide) (by decide)
    (by
      intro es hes
      rcases List.mem_singleton.mp hes with rfl
      exact ⟨by decide, by decide⟩)

/-! ## `compute_piecewise_linear_bin_values` (src/rtdl/data.py, lines 143-171) -/

/-- Per-column loop body (lines 160-169): reject any index whose successor
edge does not exist, then `(x - left_edge) / (right_edge - left_edge)`. -/
def pl_bin_values_column (c_values : List ℚ) (c_indices : List ℕ)
    (c_bin_edges : List ℚ) : Except String (List ℚ) :=
  if c_indices.any (fun i => decide (c_bin_edges.length ≤ i + 1)) then
    .error "The indices in the column are not compatible with bin_edges"
  else
    .ok (List.zipWith (fun v i =>
        (v - c_bin_edges.getD i 0)
          / (c_bin_edges.getD (i + 1) 0 - c_bin_edges.getD i 0))
      c_values c_indices)

def compute_piecewise_linear_bin_values (X : List (List ℚ))
    (indices : List (List ℕ)) (bin_edges : List (List ℚ)) :
    Except String (List (List ℚ)) :=
  if rectB X = false then .error "X must have two dimensions"
  else if shape2 X ≠ shape2 indices then
    .error "X and indices must be of the same shape"
  else if nColsOf X ≠ bin_edges.length then
    .error "The number of columns in X must be equal to the number of items in bin_edges"
  else
    match mapE (fun f =>
        pl_bin_values_column (columnOf X 0 f) (columnOf indices 0 f)
          (bin_edges.getD f [])) (List.range (nColsOf X)) with
    | .error e => .error e
    | .ok values_list => .ok (stack1 0 X.length values_list)

/-- C4: when every index has a successor edge in its column, the function
succeeds and each output entry is exactly
`(x - edges[index]) / (edges[index+1] - edges[index])` — the unclamped
interpolation fraction (see the witness, where the result lies outside
`[0, 1]`). -/
theorem compute_piecewise_linear_bin_values_spec (X : List (List ℚ))
    (indices : List (List ℕ)) (bin_edges : List (List ℚ))
    (hrect : rectB X = true)
    (hsh : shape2 X = shape2 indices)
    (hcols : nColsOf X = bin_edges.length)
    (hidx : ∀ o f, o < X.length → f < nColsOf X →
      entry2 indices 0 o f + 1 < (bin_edges.getD f []).length) :
    ∃ V, compute_piecewise_linear_bin_values X indices bin_edges = .ok V
      ∧ V.length = X.length
      ∧ (∀ row ∈ V, row.length = nColsOf X)
      ∧ ∀ o f, o < X.length → f < nColsOf X →
          entry2 V 0 o f
            = (entry2 X 0 o f
                - (bin_edges.getD f []).getD (entry2 indices 0 o f) 0)
              / ((bin_edges.getD f []).getD (entry2 indices 0 o f + 1) 0
                - (bin_edges.getD f []).getD (entry2 indices 0 o f) 0) := by
  have hXl : indices.length = X.length := (congrArg Prod.fst hsh).symm
  have hcolok : ∀ f, f < nColsOf X →
      pl_bin_values_column (columnOf X 0 f) (columnOf indices 0 f)
        (bin_edges.getD f [])
      = .ok (List.zipWith (fun v i =>
          (v - (bin_edges.getD f []).getD i 0)
            / ((bin_edges.getD f []).getD (i + 1) 0
              - (bin_edges.getD f []).getD i 0))
          (columnOf X 0 f) (columnOf indices 0 f)) := by
    intro f hf
    have hany : (columnOf indices 0 f).any
        (fun i => decide ((bin_edges.getD f []).length ≤ i + 1)) = false := by
      rw [List.any_eq_false]
      intro i hi
      rcases List.mem_map.mp hi with ⟨r, hr, rfl⟩
      rcases List.mem_iff_getElem.mp hr with ⟨o, ho, rfl⟩
      have hent : entry2 indices 0 o f = indices[o].getD f 0 := by
        unfold entry2
        rw [getD_eq_getElem_of_lt indices ho []]
      have := hidx o f (hXl ▸ ho) hf
      rw [hent] at this
      simp only [decide_eq_true_eq]
      omega
    unfold pl_bin_values_column
    rw [hany]
    simp
  have hmapE : mapE (fun f =>
      pl_bin_values_column (columnOf X 0 f) (columnOf indices 0 f)
        (bin_edges.getD f [])) (List.range (nColsOf X))
      = .ok ((List.range (nColsOf X)).map (fun f =>
          List.zipWith (fun v i =>
            (v - (bin_edges.getD f []).getD i 0)
              / ((bin_edges.getD f []).getD (i + 1) 0
                - (bin_edges.getD f []).getD i 0))
            (columnOf X 0 f) (columnOf indices 0 f))) :=
    mapE_eq_ok_of _ _ _ (fun f hf => hcolok f (List.mem_range.mp hf))
  refine ⟨stack1 0 X.length ((List.range (nColsOf X)).map (fun f =>
      List.zipWith (fun v i =>
        (v - (bin_edges.getD f []).getD i 0)
          / ((bin_edges.getD f []).getD (i + 1) 0
            - (bin_edges.getD f []).getD i 0))
        (columnOf X 0 f) (columnOf indices 0 f))), ?_, ?_, ?_, ?_⟩
  · unfold compute_piecewise_linear_bin_values
    rw [if_neg (by simp [hrect]), if_neg (by simp [hsh]), if_neg (by simp [hcols]),
      hmapE]
  · simp [stack1]
  · intro row hrow
    unfold stack1 at hrow
    rcases List.mem_map.mp hrow with ⟨o, _, rfl⟩
    simp
  · intro o f ho hf
    have ho' : o < indices.length := hXl ▸ ho
    rw [stack1_entry 0 X.length _ ho (by simpa using hf)]
    rw [getD_map_of_lt _ (List.range (nColsOf X)) (by simpa using hf) 0 []]
    rw [getD_range_of_lt hf 0]
    rw [zipWith_getD _ (columnOf X 0 f) (columnOf indices 0 f) o
      (by simpa [columnOf] using ho) (by simpa [columnOf] using ho') 0 0 0]
    unfold columnOf
    rw [getD_map_of_lt (fun r => r.getD f 0) X ho [] 0,
      getD_map_of_lt (fun r => r.getD f 0) indices ho' [] 0]
    rfl

/-- Witness for C4 at `X = [[7]]`, `indices = [[0]]`, `bin_edges = [[1, 3]]`:
the returned fraction is `(7 - 1) / (3 - 1) = 3`, outside `[0, 1]`. -/
theorem compute_piecewise_linear_bin_values_spec_witness :
    ∃ V, compute_piecewise_linear_bin_values [[(7 : ℚ)]] [[0]] [[(1 : ℚ), 3]]
        = .ok V
      ∧ V.length = [[(7 : ℚ)]].length
      ∧ (∀ row ∈ V, row.length = nColsOf [[(7 : ℚ)]])
      ∧ ∀ o f, o < [[(7 : ℚ)]].length → f < nColsOf [[(7 : ℚ)]] →
          entry2 V 0 o f
            = (entry2 [[(7 : ℚ)]] 0 o f
                - ([[(1 : ℚ), 3]].getD f []).getD (entry2 [[(0 : ℕ)]] 0 o f) 0)
              / (([[(1 : ℚ), 3]].getD f []).getD (entry2 [[(0 : ℕ)]] 0 o f + 1) 0
                - ([[(1 : ℚ), 3]].getD f []).getD (entry2 [[(0 : ℕ)]] 0 o f) 0) :=
  compute_piecewise_linear_bin_values_spec [[(7 : ℚ)]] [[0]] [[(1 : ℚ), 3]]
    (by decide) (by decide) (by decide)
    (by
      intro o f ho hf
      have ho1 : o = 0 := by simpa [Nat.lt_one_iff] using ho
      have hf1 : f = 0 := by simpa [Nat.lt_one_iff, nColsOf] using hf
      subst ho1
      subst hf1
      decide)

/-! ## Bin-edge computation (src/rtdl/data.py, lines 25-90)

`np.quantile` with the default linear interpolation, `np.linspace(0, 1, k+1)`
and `_adjust_bin_counts`; the `warnings.warn` side channel becomes a `Bool`
per column (`true` iff the warning was emitted). -/

/-- Model of `np.quantile` on already sorted data, linear interpolation:
`h = q * (n - 1)`, `i = floor h`, `s[i] + (h - i) * (s[min(i+1, n-1)] - s[i])`. -/
def np_quantile_sorted (s : List ℚ) (q : ℚ) : ℚ :=
  let n := s.length
  let h : ℚ := q * ((n : ℚ) - 1)
  let i : ℕ := (⌊h⌋).toNat
  let lo := s.getD i 0
  let hi := s.getD (min (i + 1) (n - 1)) 0
  lo + (h - (i : ℚ)) * (hi - lo)

def np_quantile (l : List ℚ) (q : ℚ) : ℚ := np_quantile_sorted (np_sort l) q

/-- Model of `np.linspace(0.0, 1.0, k + 1)`: the `k + 1` evenly spaced levels. -/
def np_linspace01 (k : ℕ) : List ℚ :=
  (List.range (k + 1)).map (fun j : ℕ => (j : ℚ) / (k : ℚ))

/-- Source function `_adjust_bin_counts` (lines 25-39); each column yields its adjusted count
`min(n_bins, n_unique)` paired with whether the non-fatal warning fired. -/
def _adjust_bin_counts (X : List (List ℚ)) (n_bins : ℕ) :
    Except String (List (ℕ × Bool)) :=
  if n_bins < 2 then .error "n_bins must be greater than 1"
  else
    mapE (fun f =>
      let n_unique := (np_unique (columnOf X 0 f)).length
      if n_unique < 2 then .error "All elements in the column are the same"
      else .ok (min n_bins n_unique, decide (n_unique < n_bins)))
      (List.range (nColsOf X))

/-- Per-column body of `compute_quantile_bin_edges` (lines 47-50). -/
def quantile_bin_edges_column (column : List ℚ) (adjusted_n_bins : ℕ) : List ℚ :=
  np_unique ((np_linspace01 adjusted_n_bins).map (np_quantile column))

def compute_quantile_bin_edges (X : List (List ℚ)) (n_bins : ℕ) :
    Except String (List (List ℚ)) :=
  if rectB X = false then .error "X must have two dimensions"
  else
    match _adjust_bin_counts X n_bins with
    | .error e => .error e
    | .ok adjusted_bin_counts =>
      .ok (List.zipWith
        (fun f ab => quantile_bin_edges_column (columnOf X 0 f) ab.1)
        (List.range (nColsOf X)) adjusted_bin_counts)

/-- The array representation `tree_` of a fitted sklearn decision tree,
as read by the source: a node count and per-node left child, right child
and threshold (the upstream collaborator of the spec, section 6). -/
structure SklearnTree : Type where
  node_count : ℕ
  children_left : ℕ → ℤ
  children_right : ℕ → ℤ
  threshold : ℕ → ℚ

/-- Threshold collection loop (lines 81-86): thresholds of exactly the
nodes whose two children differ. -/
def tree_thresholds (tree : SklearnTree) : List ℚ :=
  (List.range tree.node_count).filterMap (fun node_id =>
    if tree.children_left node_id ≠ tree.children_right node_id then
      some (tree.threshold node_id)
    else none)

/-- Model of `column.min()`: head of the sorted column. -/
def listMin (l : List ℚ) : ℚ := (np_sort l).getD 0 0

/-- Model of `column.max()`: last of the sorted column. -/
def listMax (l : List ℚ) : ℚ := (np_sort l).getD (l.length - 1) 0

/-- Source function `compute_decision_tree_bin_edges` (lines 54-90).  The sklearn fitting
call is the external collaborator: it is abstracted as the oracle `fit`,
mapping a column and the `max_leaf_nodes` value (the adjusted bin count) to
the fitted `tree_` for the ambient `y` / `regression` / `tree_kwargs`;
`tree_kwargs` itself is only inspected for the key `max_leaf_nodes`, modelled
by the flag `kwargs_has_max_leaf_nodes`. -/
def compute_decision_tree_bin_edges (X : List (List ℚ)) (n_bins : ℕ)
    (y : List ℚ) (kwargs_has_max_leaf_nodes : Bool)
    (fit : List ℚ → ℕ → SklearnTree) : Except String (List (List ℚ)) :=
  if rectB X = false then .error "X must have two dimensions"
  else if X.length ≠ y.length then .error "X and y have different first dimensions"
  else if kwargs_has_max_leaf_nodes then
    .error "Do not include max_leaf_nodes in tree_kwargs"
  else
    match _adjust_bin_counts X n_bins with
    | .error e => .error e
    | .ok adjusted_bin_counts =>
      .ok (List.zipWith
        (fun f ab =>
          let column := columnOf X 0 f
          np_unique (tree_thresholds (fit column ab.1)
            ++ [listMin column, listMax column]))
        (List.range (nColsOf X)) adjusted_bin_counts)

theorem mapE_ok_length {α β : Type} (f : α → Except String β) :
    ∀ {l : List α} {bs : List β}, mapE f l = .ok bs → bs.length = l.length := by
  intro l
  induction l with
  | nil => intro bs h; cases h; rfl
  | cons a as ih =>
    intro bs h
    unfold mapE at h
    cases hfa : f a with
    | error e => rw [hfa] at h; cases h
    | ok b =>
      rw [hfa] at h
      cases hrest : mapE f as with
      | error e => rw [hrest] at h; cases h
      | ok bs' =>
        rw [hrest] at h
        cases h
        simpa using ih hrest

theorem np_sort_length {α : Type} [LinearOrder α] (l : List α) :
    (np_sort l).length = l.length :=
  (np_sort_perm l).length_eq

theorem np_unique_length_le {α : Type} [LinearOrder α] (l : List α) :
    (np_unique l).length ≤ l.length := by
  calc (np_unique l).length ≤ (np_sort l).length :=
        (List.dedup_sublist _).length_le
    _ = l.length := np_sort_length l

theorem np_quantile_sorted_zero (s : List ℚ) :
    np_quantile_sorted s 0 = s.getD 0 0 := by
  simp [np_quantile_sorted]

theorem np_quantile_sorted_one (s : List ℚ) (hl : 1 ≤ s.length) :
    np_quantile_sorted s 1 = s.getD (s.length - 1) 0 := by
  simp only [np_quantile_sorted, one_mul]
  have hcast : ((s.length : ℚ) - 1) = ((s.length - 1 : ℕ) : ℚ) := by
    rw [Nat.cast_sub hl, Nat.cast_one]
  rw [hcast, Int.floor_natCast, Int.toNat_natCast, sub_self, zero_mul, add_zero]

theorem np_quantile_zero (l : List ℚ) :
    np_quantile l 0 = (np_sort l).getD 0 0 :=
  np_quantile_sorted_zero (np_sort l)

theorem np_quantile_one (l : List ℚ) (hl : 1 ≤ l.length) :
    np_quantile l 1 = (np_sort l).getD (l.length - 1) 0 := by
  unfold np_quantile
  rw [np_quantile_sorted_one (np_sort l) (by rw [np_sort_length]; exact hl),
    np_sort_length]

theorem zero_mem_np_linspace01 (k : ℕ) : (0 : ℚ) ∈ np_linspace01 k := by
  unfold np_linspace01
  exact List.mem_map.mpr ⟨0, List.mem_range.mpr (Nat.succ_pos k), by simp⟩

theorem one_mem_np_linspace01 (k : ℕ) (hk : 1 ≤ k) :
    (1 : ℚ) ∈ np_linspace01 k := by
  unfold np_linspace01
  apply List.mem_map.mpr
  refine ⟨k, List.mem_range.mpr (Nat.lt_succ_self k), ?_⟩
  have hk0 : (k : ℚ) ≠ 0 := by
    exact_mod_cast Nat.pos_iff_ne_zero.mp hk
  exact div_self hk0

theorem getD_zero_le_of_mem {s : List ℚ} (hs : List.Pairwise (· ≤ ·) s)
    {x : ℚ} (hx : x ∈ s) : s.getD 0 0 ≤ x := by
  rcases List.mem_iff_getElem.mp hx with ⟨i, hi, rfl⟩
  have h0 : 0 < s.length := lt_of_le_of_lt (Nat.zero_le _) hi
  rcases Nat.eq_zero_or_pos i with rfl | hpos
  · rw [getD_eq_getElem_of_lt s hi 0]
  · rw [getD_eq_getElem_of_lt s h0 0]
    exact List.pairwise_iff_getElem.mp hs 0 i h0 hi hpos

theorem le_getD_last_of_mem {s : List ℚ} (hs : List.Pairwise (· ≤ ·) s)
    {x : ℚ} (hx : x ∈ s) : x ≤ s.getD (s.length - 1) 0 := by
  rcases List.mem_iff_getElem.mp hx with ⟨i, hi, rfl⟩
  have hlast : s.length - 1 < s.length := by omega
  rw [getD_eq_getElem_of_lt s hlast 0]
  rcases Nat.eq_or_lt_of_le (Nat.le_sub_one_of_lt hi) with heq | hlt
  · have : s[i] = s[s.length - 1] := by
      rw [← getD_eq_getElem_of_lt s hi 0, ← getD_eq_getElem_of_lt s hlast 0, heq]
    rw [this]
  · exact List.pairwise_iff_getElem.mp hs i (s.length - 1) hi hlast hlt

theorem two_le_length_of_mem_ne {α : Type} {l : List α} {a b : α}
    (ha : a ∈ l) (hb : b ∈ l) (hab : a ≠ b) : 2 ≤ l.length := by
  cases l with
  | nil => cases ha
  | cons x xs =>
    cases xs with
    | nil =>
      rcases List.mem_singleton.mp ha with rfl
      rcases List.mem_singleton.mp hb with rfl
      exact absurd rfl hab
    | cons y ys => simp [List.length_cons]

/-- A column with at least two distinct values has its sorted minimum
strictly below its sorted maximum. -/
theorem np_sort_head_lt_last {col : List ℚ}
    (h2 : 2 ≤ (np_unique col).length) :
    (np_sort col).getD 0 0 < (np_sort col).getD (col.length - 1) 0 := by
  have hsl : (np_sort col).length = col.length := np_sort_length col
  cases hu2 : np_unique col with
  | nil => rw [hu2] at h2; simp at h2
  | cons a rest =>
    cases rest with
    | nil => rw [hu2] at h2; simp at h2
    | cons b rest2 =>
      have hpw := np_unique_sorted col
      rw [hu2] at hpw
      have hab : a < b := (List.pairwise_cons.mp hpw).1 b (by simp)
      have hamem : a ∈ col := mem_np_unique.mp (by rw [hu2]; simp)
      have hbmem : b ∈ col := mem_np_unique.mp (by rw [hu2]; simp)
      have hs := np_sort_sorted col
      have ha' : a ∈ np_sort col := (np_sort_perm col).mem_iff.mpr hamem
      have hb' : b ∈ np_sort col := (np_sort_perm col).mem_iff.mpr hbmem
      have h1 := getD_zero_le_of_mem hs ha'
      have h2' := le_getD_last_of_mem hs hb'
      rw [hsl] at h2'
      exact lt_of_le_of_lt h1 (lt_of_lt_of_le hab h2')

/-- Under the success conditions, `_adjust_bin_counts` yields per column
`min(n_bins, n_unique)` and warns exactly when `n_unique < n_bins`. -/
theorem adjust_bin_counts_ok (X : List (List ℚ)) (n_bins : ℕ)
    (hb : 2 ≤ n_bins)
    (hu : ∀ f, f < nColsOf X → 2 ≤ (np_unique (columnOf X 0 f)).length) :
    _adjust_bin_counts X n_bins
      = .ok ((List.range (nColsOf X)).map (fun f =>
          (min n_bins (np_unique (columnOf X 0 f)).length,
           decide ((np_unique (columnOf X 0 f)).length < n_bins)))) := by
  unfold _adjust_bin_counts
  rw [if_neg (by omega)]
  apply mapE_eq_ok_of
  intro f hf
  have h2 := hu f (List.mem_range.mp hf)
  have hlt : ¬ ((np_unique (columnOf X 0 f)).length < 2) := by omega
  simp [hlt]

/-- C6: with `n_bins ≥ 2` and at least two distinct values per column,
`compute_quantile_bin_edges` succeeds, and the edge sequence of each column is
the deduplicated quantile values at the `effective_bins + 1` evenly spaced
levels (`effective_bins = min(n_bins, n_unique)`), is strictly increasing,
and has length between `2` and `n_bins + 1`. -/
theorem compute_quantile_bin_edges_spec (X : List (List ℚ)) (n_bins : ℕ)
    (hrect : rectB X = true) (hX : 1 ≤ X.length) (hb : 2 ≤ n_bins)
    (hu : ∀ f, f < nColsOf X → 2 ≤ (np_unique (columnOf X 0 f)).length) :
    ∃ E, compute_quantile_bin_edges X n_bins = .ok E
      ∧ E.length = nColsOf X
      ∧ ∀ f, f < nColsOf X →
          E.getD f []
            = np_unique ((np_linspace01
                (min n_bins (np_unique (columnOf X 0 f)).length)).map
                  (np_quantile (columnOf X 0 f)))
          ∧ List.Pairwise (· < ·) (E.getD f [])
          ∧ 2 ≤ (E.getD f []).length
          ∧ (E.getD f []).length ≤ n_bins + 1 := by
  have hadj := adjust_bin_counts_ok X n_bins hb hu
  refine ⟨List.zipWith
    (fun f ab => quantile_bin_edges_column (columnOf X 0 f) ab.1)
    (List.range (nColsOf X))
    ((List.range (nColsOf X)).map (fun f =>
      (min n_bins (np_unique (columnOf X 0 f)).length,
       decide ((np_unique (columnOf X 0 f)).length < n_bins)))), ?_, ?_, ?_⟩
  · unfold compute_quantile_bin_edges
    rw [if_neg (by simp [hrect]), hadj]
  · simp [List.length_zipWith]
  · intro f hf
    have hkey : (List.zipWith
        (fun f ab => quantile_bin_edges_column (columnOf X 0 f) ab.1)
        (List.range (nColsOf X))
        ((List.range (nColsOf X)).map (fun f =>
          (min n_bins (np_unique (columnOf X 0 f)).length,
           decide ((np_unique (columnOf X 0 f)).length < n_bins))))).getD f []
        = quantile_bin_edges_column (columnOf X 0 f)
            (min n_bins (np_unique (columnOf X 0 f)).length) := by
      rw [zipWith_getD _ _ _ f (by simpa using hf) (by simpa using hf)
        0 (0, false) []]
      rw [getD_range_of_lt hf 0]
      rw [getD_map_of_lt _ (List.range (nColsOf X)) (by simpa using hf)
        0 (0, false)]
      rw [getD_range_of_lt hf 0]
    rw [hkey]
    have hu2 := hu f hf
    have hk2 : 2 ≤ min n_bins (np_unique (columnOf X 0 f)).length :=
      le_min hb hu2
    refine ⟨rfl, np_unique_sorted _, ?_, ?_⟩
    · have hcl : (columnOf X 0 f).length = X.length := by simp [columnOf]
      have hq0 : np_quantile (columnOf X 0 f) 0
          = (np_sort (columnOf X 0 f)).getD 0 0 := np_quantile_zero _
      have hq1 : np_quantile (columnOf X 0 f) 1
          = (np_sort (columnOf X 0 f)).getD ((columnOf X 0 f).length - 1) 0 :=
        np_quantile_one _ (by omega)
      have hm0 : (np_sort (columnOf X 0 f)).getD 0 0
          ∈ (np_linspace01 (min n_bins (np_unique (columnOf X 0 f)).length)).map
              (np_quantile (columnOf X 0 f)) :=
        List.mem_map.mpr ⟨0, zero_mem_np_linspace01 _, hq0⟩
      have hm1 : (np_sort (columnOf X 0 f)).getD ((columnOf X 0 f).length - 1) 0
          ∈ (np_linspace01 (min n_bins (np_unique (columnOf X 0 f)).length)).map
              (np_quantile (columnOf X 0 f)) :=
        List.mem_map.mpr ⟨1, one_mem_np_linspace01 _ (by omega), hq1⟩
      have hne : (np_sort (columnOf X 0 f)).getD 0 0
          ≠ (np_sort (columnOf X 0 f)).getD ((columnOf X 0 f).length - 1) 0 :=
        ne_of_lt (np_sort_head_lt_last hu2)
      exact two_le_length_of_mem_ne (mem_np_unique.mpr hm0)
        (mem_np_unique.mpr hm1) hne
    · calc (quantile_bin_edges_column (columnOf X 0 f)
            (min n_bins (np_unique (columnOf X 0 f)).length)).length
          ≤ ((np_linspace01 (min n_bins (np_unique (columnOf X 0 f)).length)).map
              (np_quantile (columnOf X 0 f))).length := np_unique_length_le _
        _ = min n_bins (np_unique (columnOf X 0 f)).length + 1 := by
            simp [np_linspace01]
        _ ≤ n_bins + 1 := by
            have := min_le_left n_bins (np_unique (columnOf X 0 f)).length
            omega

/-- Witness for C6 at `X = [[0], [1], [2]]` (one column, three distinct
values), `n_bins = 2`. -/
theorem compute_quantile_bin_edges_spec_witness :
    ∃ E, compute_quantile_bin_edges [[(0 : ℚ)], [(1 : ℚ)], [(2 : ℚ)]] 2 = .ok E
      ∧ E.length = nColsOf [[(0 : ℚ)], [(1 : ℚ)], [(2 : ℚ)]]
      ∧ ∀ f, f < nColsOf [[(0 : ℚ)], [(1 : ℚ)], [(2 : ℚ)]] →
          E.getD f []
            = np_unique ((np_linspace01
                (min 2 (np_unique
                  (columnOf [[(0 : ℚ)], [(1 : ℚ)], [(2 : ℚ)]] 0 f)).length)).map
                  (np_quantile (columnOf [[(0 : ℚ)], [(1 : ℚ)], [(2 : ℚ)]] 0 f)))
          ∧ List.Pairwise (· < ·) (E.getD f [])
          ∧ 2 ≤ (E.getD f []).length
          ∧ (E.getD f []).length ≤ 2 + 1 :=
  compute_quantile_bin_edges_spec [[(0 : ℚ)], [(1 : ℚ)], [(2 : ℚ)]] 2
    (by decide) (by decide) (by decide)
    (by
      intro f hf
      have hf1 : f = 0 := by simpa [Nat.lt_one_iff, nColsOf] using hf
      subst hf1
      decide)

theorem mem_tree_thresholds {T : SklearnTree} {x : ℚ} :
    x ∈ tree_thresholds T ↔ ∃ node_id, node_id < T.node_count ∧
      T.children_left node_id ≠ T.children_right node_id ∧
      T.threshold node_id = x := by
  unfold tree_thresholds
  rw [List.mem_filterMap]
  constructor
  · rintro ⟨a, ha, hfa⟩
    by_cases h : T.children_left a ≠ T.children_right a
    · rw [if_pos h] at hfa
      exact ⟨a, List.mem_range.mp ha, h, Option.some.inj hfa⟩
    · rw [if_neg h] at hfa
      cases hfa
  · rintro ⟨a, ha, hne, hth⟩
    exact ⟨a, List.mem_range.mpr ha, by rw [if_pos hne, hth]⟩

/-- C7: each edge sequence returned by `compute_decision_tree_bin_edges` is
strictly increasing and contains exactly the thresholds of the fitted
split nodes of the fitted tree (the nodes whose two children differ) together with the
column minimum and maximum — and no threshold of any other node. -/
theorem compute_decision_tree_bin_edges_spec (X : List (List ℚ))
    (n_bins : ℕ) (y : List ℚ) (fit : List ℚ → ℕ → SklearnTree)
    (hrect : rectB X = true) (hlen : X.length = y.length) (hb : 2 ≤ n_bins)
    (hu : ∀ f, f < nColsOf X → 2 ≤ (np_unique (columnOf X 0 f)).length) :
    ∃ E, compute_decision_tree_bin_edges X n_bins y false fit = .ok E
      ∧ E.length = nColsOf X
      ∧ ∀ f, f < nColsOf X →
          List.Pairwise (· < ·) (E.getD f [])
          ∧ ∀ x : ℚ, x ∈ E.getD f [] ↔
              ((∃ node_id, node_id < (fit (columnOf X 0 f)
                    (min n_bins (np_unique (columnOf X 0 f)).length)).node_count
                  ∧ (fit (columnOf X 0 f)
                      (min n_bins (np_unique (columnOf X 0 f)).length)).children_left
                        node_id
                    ≠ (fit (columnOf X 0 f)
                      (min n_bins (np_unique (columnOf X 0 f)).length)).children_right
                        node_id
                  ∧ (fit (columnOf X 0 f)
                      (min n_bins (np_unique (columnOf X 0 f)).length)).threshold
                        node_id = x)
               ∨ x = listMin (columnOf X 0 f)
               ∨ x = listMax (columnOf X 0 f)) := by
  have hadj := adjust_bin_counts_ok X n_bins hb hu
  refine ⟨List.zipWith
    (fun f ab =>
      let column := columnOf X 0 f
      np_unique (tree_thresholds (fit column ab.1)
        ++ [listMin column, listMax column]))
    (List.range (nColsOf X))
    ((List.range (nColsOf X)).map (fun f =>
      (min n_bins (np_unique (columnOf X 0 f)).length,
       decide ((np_unique (columnOf X 0 f)).length < n_bins)))), ?_, ?_, ?_⟩
  · unfold compute_decision_tree_bin_edges
    rw [if_neg (by simp [hrect]), if_neg (by simp [hlen]), if_neg (by simp), hadj]
  · simp [List.length_zipWith]
  · intro f hf
    have hkey : (List.zipWith
        (fun f ab =>
          let column := columnOf X 0 f
          np_unique (tree_thresholds (fit column ab.1)
            ++ [listMin column, listMax column]))
        (List.range (nColsOf X))
        ((List.range (nColsOf X)).map (fun f =>
          (min n_bins (np_unique (columnOf X 0 f)).length,
           decide ((np_unique (columnOf X 0 f)).length < n_bins))))).getD f []
        = np_unique (tree_thresholds (fit (columnOf X 0 f)
            (min n_bins (np_unique (columnOf X 0 f)).length))
            ++ [listMin (columnOf X 0 f), listMax (columnOf X 0 f)]) := by
      rw [zipWith_getD _ _ _ f (by simpa using hf) (by simpa using hf)
        0 (0, false) []]
      rw [getD_range_of_lt hf 0]
      rw [getD_map_of_lt _ (List.range (nColsOf X)) (by simpa using hf)
        0 (0, false)]
      rw [getD_range_of_lt hf 0]
    rw [hkey]
    refine ⟨np_unique_sorted _, ?_⟩
    intro x
    rw [mem_np_unique, List.mem_append, mem_tree_thresholds]
    simp

/-- Witness for C7 at `X = [[0], [1]]`, `y = [0, 1]`, `n_bins = 2` with a
three-node oracle tree whose root is the only split node. -/
theorem compute_decision_tree_bin_edges_spec_witness :
    ∃ E, compute_decision_tree_bin_edges [[(0 : ℚ)], [(1 : ℚ)]] 2 [(0 : ℚ), 1]
        false (fun _ _ => ⟨3, fun i => if i = 0 then 1 else -1,
          fun i => if i = 0 then 2 else -1, fun _ => 5⟩) = .ok E
      ∧ E.length = nColsOf [[(0 : ℚ)], [(1 : ℚ)]]
      ∧ ∀ f, f < nColsOf [[(0 : ℚ)], [(1 : ℚ)]] →
          List.Pairwise (· < ·) (E.getD f [])
          ∧ ∀ x : ℚ, x ∈ E.getD f [] ↔
              ((∃ node_id, node_id < ((fun (_ : List ℚ) (_ : ℕ) =>
                    (⟨3, fun i => if i = 0 then 1 else -1,
                      fun i => if i = 0 then 2 else -1,
                      fun _ => 5⟩ : SklearnTree))
                      (columnOf [[(0 : ℚ)], [(1 : ℚ)]] 0 f)
                      (min 2 (np_unique
                        (columnOf [[(0 : ℚ)], [(1 : ℚ)]] 0 f)).length)).node_count
                  ∧ ((fun (_ : List ℚ) (_ : ℕ) =>
                    (⟨3, fun i => if i = 0 then 1 else -1,
                      fun i => if i = 0 then 2 else -1,
                      fun _ => 5⟩ : SklearnTree))
                      (columnOf [[(0 : ℚ)], [(1 : ℚ)]] 0 f)
                      (min 2 (np_unique
                        (columnOf [[(0 : ℚ)], [(1 : ℚ)]] 0 f)).length)).children_left
                        node_id
                    ≠ ((fun (_ : List ℚ) (_ : ℕ) =>
                    (⟨3, fun i => if i = 0 then 1 else -1,
                      fun i => if i = 0 then 2 else -1,
                      fun _ => 5⟩ : SklearnTree))
                      (columnOf [[(0 : ℚ)], [(1 : ℚ)]] 0 f)
                      (min 2 (np_unique
                        (columnOf [[(0 : ℚ)], [(1 : ℚ)]] 0 f)).length)).children_right
                        node_id
                  ∧ ((fun (_ : List ℚ) (_ : ℕ) =>
                    (⟨3, fun i => if i = 0 then 1 else -1,
                      fun i => if i = 0 then 2 else -1,
                      fun _ => 5⟩ : SklearnTree))
                      (columnOf [[(0 : ℚ)], [(1 : ℚ)]] 0 f)
                      (min 2 (np_unique
                        (columnOf [[(0 : ℚ)], [(1 : ℚ)]] 0 f)).length)).threshold
                        node_id = x)
               ∨ x = listMin (columnOf [[(0 : ℚ)], [(1 : ℚ)]] 0 f)
               ∨ x = listMax (columnOf [[(0 : ℚ)], [(1 : ℚ)]] 0 f)) :=
  compute_decision_tree_bin_edges_spec [[(0 : ℚ)], [(1 : ℚ)]] 2 [(0 : ℚ), 1]
    (fun _ _ => ⟨3, fun i => if i = 0 then 1 else -1,
      fun i => if i = 0 then 2 else -1, fun _ => 5⟩)
    (by decide) (by decide) (by decide)
    (by
      intro f hf
      have hf1 : f = 0 := by simpa [Nat.lt_one_iff, nColsOf] using hf
      subst hf1
      decide)

/-- C8: with the other guards satisfied, both bin-edge computations fail
when `n_bins < 2` or when some column has fewer than two distinct values;
when every column has at least two distinct values, `_adjust_bin_counts`
succeeds with per-column effective count `min(n_bins, n_unique)`, the
warning flag set exactly for the columns with `n_unique < n_bins`, and both
computations proceed to a result. -/
theorem adjust_bin_counts_failure_spec (X : List (List ℚ)) (n_bins : ℕ)
    (y : List ℚ) (fit : List ℚ → ℕ → SklearnTree)
    (hrect : rectB X = true) (hlen : X.length = y.length) :
    (n_bins < 2 →
      _adjust_bin_counts X n_bins = .error "n_bins must be greater than 1"
      ∧ compute_quantile_bin_edges X n_bins
          = .error "n_bins must be greater than 1"
      ∧ compute_decision_tree_bin_edges X n_bins y false fit
          = .error "n_bins must be greater than 1")
    ∧ (2 ≤ n_bins → ∀ f, f < nColsOf X →
        (np_unique (columnOf X 0 f)).length < 2 →
        (∀ out, _adjust_bin_counts X n_bins ≠ .ok out)
        ∧ (∀ out, compute_quantile_bin_edges X n_bins ≠ .ok out)
        ∧ (∀ out, compute_decision_tree_bin_edges X n_bins y false fit ≠ .ok out))
    ∧ (2 ≤ n_bins →
        (∀ f, f < nColsOf X → 2 ≤ (np_unique (columnOf X 0 f)).length) →
        _adjust_bin_counts X n_bins
          = .ok ((List.range (nColsOf X)).map (fun f =>
              (min n_bins (np_unique (columnOf X 0 f)).length,
               decide ((np_unique (columnOf X 0 f)).length < n_bins))))
        ∧ (∃ E, compute_quantile_bin_edges X n_bins = .ok E)
        ∧ (∃ E, compute_decision_tree_bin_edges X n_bins y false fit = .ok E)) := by
  refine ⟨?_, ?_, ?_⟩
  · intro hb2
    have hadj : _adjust_bin_counts X n_bins
        = .error "n_bins must be greater than 1" := by
      unfold _adjust_bin_counts
      rw [if_pos hb2]
    refine ⟨hadj, ?_, ?_⟩
    · unfold compute_quantile_bin_edges
      rw [if_neg (by simp [hrect]), hadj]
    · unfold compute_decision_tree_bin_edges
      rw [if_neg (by simp [hrect]), if_neg (by simp [hlen]), if_neg (by simp),
        hadj]
  · intro hb f hf hsmall
    have hadj_ne : ∀ out, _adjust_bin_counts X n_bins ≠ .ok out := by
      intro out
      unfold _adjust_bin_counts
      rw [if_neg (by omega)]
      apply mapE_ne_ok _ (List.mem_range.mpr hf)
      intro b
      simp [hsmall]
    refine ⟨hadj_ne, ?_, ?_⟩
    · intro out
      unfold compute_quantile_bin_edges
      rw [if_neg (by simp [hrect])]
      cases hA : _adjust_bin_counts X n_bins with
      | error e => simp
      | ok counts => exact absurd hA (hadj_ne counts)
    · intro out
      unfold compute_decision_tree_bin_edges
      rw [if_neg (by simp [hrect]), if_neg (by simp [hlen]), if_neg (by simp)]
      cases hA : _adjust_bin_counts X n_bins with
      | error e => simp
      | ok counts => exact absurd hA (hadj_ne counts)
  · intro hb hu
    have hadj := adjust_bin_counts_ok X n_bins hb hu
    refine ⟨hadj, ?_, ?_⟩
    · unfold compute_quantile_bin_edges
      rw [if_neg (by simp [hrect]), hadj]
      exact ⟨_, rfl⟩
    · unfold compute_decision_tree_bin_edges
      rw [if_neg (by simp [hrect]), if_neg (by simp [hlen]), if_neg (by simp),
        hadj]
      exact ⟨_, rfl⟩

/-- Witness for C8: the `n_bins = 1` failure, the constant-column failure,
and the warning-and-proceed case (`n_bins = 5` against two distinct
values). -/
theorem adjust_bin_counts_failure_spec_witness :
    (_adjust_bin_counts [[(0 : ℚ)], [(1 : ℚ)]] 1
        = .error "n_bins must be greater than 1"
      ∧ compute_quantile_bin_edges [[(0 : ℚ)], [(1 : ℚ)]] 1
          = .error "n_bins must be greater than 1"
      ∧ compute_decision_tree_bin_edges [[(0 : ℚ)], [(1 : ℚ)]] 1 [(0 : ℚ), 1]
          false (fun _ _ => ⟨0, fun _ => -1, fun _ => -1, fun _ => 0⟩)
          = .error "n_bins must be greater than 1")
    ∧ ((∀ out, _adjust_bin_counts [[(0 : ℚ)], [(0 : ℚ)]] 2 ≠ .ok out)
      ∧ (∀ out, compute_quantile_bin_edges [[(0 : ℚ)], [(0 : ℚ)]] 2 ≠ .ok out)
      ∧ (∀ out, compute_decision_tree_bin_edges [[(0 : ℚ)], [(0 : ℚ)]] 2
          [(0 : ℚ), 1] false
          (fun _ _ => ⟨0, fun _ => -1, fun _ => -1, fun _ => 0⟩) ≠ .ok out))
    ∧ (_adjust_bin_counts [[(0 : ℚ)], [(1 : ℚ)]] 5
        = .ok ((List.range (nColsOf [[(0 : ℚ)], [(1 : ℚ)]])).map (fun f =>
            (min 5 (np_unique (columnOf [[(0 : ℚ)], [(1 : ℚ)]] 0 f)).length,
             decide ((np_unique
               (columnOf [[(0 : ℚ)], [(1 : ℚ)]] 0 f)).length < 5))))
      ∧ (∃ E, compute_quantile_bin_edges [[(0 : ℚ)], [(1 : ℚ)]] 5 = .ok E)
      ∧ (∃ E, compute_decision_tree_bin_edges [[(0 : ℚ)], [(1 : ℚ)]] 5
          [(0 : ℚ), 1] false
          (fun _ _ => ⟨0, fun _ => -1, fun _ => -1, fun _ => 0⟩) = .ok E)) :=
  ⟨(adjust_bin_counts_failure_spec [[(0 : ℚ)], [(1 : ℚ)]] 1 [(0 : ℚ), 1]
      (fun _ _ => ⟨0, fun _ => -1, fun _ => -1, fun _ => 0⟩)
      (by decide) (by decide)).1 (by decide),
   (adjust_bin_counts_failure_spec [[(0 : ℚ)], [(0 : ℚ)]] 2 [(0 : ℚ), 1]
      (fun _ _ => ⟨0, fun _ => -1, fun _ => -1, fun _ => 0⟩)
      (by decide) (by decide)).2.1 (by decide) 0 (by decide) (by decide),
   (adjust_bin_counts_failure_spec [[(0 : ℚ)], [(1 : ℚ)]] 5 [(0 : ℚ), 1]
      (fun _ _ => ⟨0, fun _ => -1, fun _ => -1, fun _ => 0⟩)
      (by decide) (by decide)).2.2 (by decide)
      (by
        intro f hf
        have hf1 : f = 0 := by simpa [Nat.lt_one_iff, nColsOf] using hf
        subst hf1
        decide)⟩

end Rtdl
